import Mathlib

/-!
Verification of `rollerupper.py`: a generic multi-field comparator
(`GenericComparator`), a mutable hierarchical grouping tree (`RollerUpper`,
modelled here as the inductive `RU`), and an immutable wrapper variant
(`ImmutableRollerUpper`, modelled by `immutableGroupHierarchyBy`).

Modelling conventions for the shallow embedding:
* items have an abstract type `α`; grouping values / keys have an abstract
  type `κ` with decidable equality (Python `==` on dict keys);
* Python `None` is `Option.none`; a node's `name` is `Option String`
  (grouping always stores `str(...)` names, but constructors allow `None`),
  its `key` is `Option κ`, its `data` a `List α`;
* a node with `children == None` is `RU.leaf`, a node with a children list
  is `RU.node` (the list may be empty);
* evaluation of a grouping expression (`getattr` or the `exec` path of
  `_group_by`) is an abstract function `f : α → Option κ`; `str(k)` on a
  key is an abstract function `strFn : κ → String`, and `str(None)` is the
  literal `"None"`; the optional `name_field` access is `nf : κ → Option κ`;
* a Python `dict` built by insertion is an association list with keys in
  first-insertion order (`buildGroups`);
* Python `list.sort()` with the `__lt__` of `RU_COMPARATOR` (field list
  `['name']`, all names strings at the call site) is the unique stable
  sort by ascending name, embedded as the stable insertion sort `pySort`;
* failed `asrt` calls and the `TypeError` of iterating `None` are
  `Except.error`.
-/

namespace RollerUpper

/-- The tree of `RollerUpper` nodes.  `leaf` is `children == None`,
`node` is a present children list (possibly empty). -/
inductive RU (α : Type) (κ : Type) : Type where
  | leaf (name : Option String) (key : Option κ) (data : List α)
  | node (name : Option String) (key : Option κ) (data : List α)
      (children : List (RU α κ))

variable {α : Type} {κ : Type}

/-- The `name` attribute of a node. -/
def RU.nameOf : RU α κ → Option String
  | .leaf n _ _ => n
  | .node n _ _ _ => n

/-- The `key` attribute of a node. -/
def RU.keyOf : RU α κ → Option κ
  | .leaf _ k _ => k
  | .node _ k _ _ => k

/-- The `data` attribute of a node (the spec's `items`). -/
def RU.dataOf : RU α κ → List α
  | .leaf _ _ d => d
  | .node _ _ d _ => d

/-- The `children` attribute of a node (`none` models Python `None`). -/
def RU.childrenOf : RU α κ → Option (List (RU α κ))
  | .leaf _ _ _ => none
  | .node _ _ _ cs => some cs

/-- Python `str` applied to a name that is either `None` or a string. -/
def strN : Option String → String
  | none => "None"
  | some s => s

/-- Python `str` applied to a key value that is either `None` or a `κ`
(`strFn` models `str` on `κ` values). -/
def strOpt (strFn : κ → String) : Option κ → String
  | none => "None"
  | some k => strFn k

/-- Python truthiness of an optional list argument: `None` and `[]` are
falsy, a non-empty list is truthy. -/
def truthyList : Option (List β) → Bool
  | none => false
  | some l => !l.isEmpty

/-- Whether a call raised (an `asrt` failure or a `TypeError`). -/
def isErr : Except String β → Bool
  | .error _ => true
  | .ok _ => false

/-- The derived `data` of an internal node: `for c in children:
self.data.extend(c.data)`. -/
def concatData (cs : List (RU α κ)) : List α :=
  (cs.map RU.dataOf).flatten

/-- `RollerUpper.__init__(name, key, data, children)`:
fails the first `asrt` when both arguments are `None`, the second when
both are truthy (non-empty); otherwise the `children` branch (executed
last) wins when `children != None`. -/
def initRU (nm : Option String) (ky : Option κ) (dt : Option (List α))
    (ch : Option (List (RU α κ))) : Except String (RU α κ) :=
  if dt.isNone && ch.isNone then
    .error "data or children must be specified"
  else if truthyList dt && truthyList ch then
    .error "data or children must be specified, not both"
  else
    match dt, ch with
    | _, some cs => .ok (.node nm ky (concatData cs) cs)
    | some d, none => .ok (.leaf nm ky d)
    | none, none => .error "data or children must be specified"

section Grouping

variable [DecidableEq κ]

/-- One step of `group[val].append(d)` (with
`if val not in group.keys(): group[val] = []`): append `x` to the bucket
of key `v`, creating the bucket at the end when absent. -/
def addToGroups (v : Option κ) (x : α) :
    List (Option κ × List α) → List (Option κ × List α)
  | [] => [(v, [x])]
  | (k, xs) :: rest =>
      if k = v then (k, xs ++ [x]) :: rest
      else (k, xs) :: addToGroups v x rest

/-- The `for d in self.data` loop of `_group_by`, threading the dict. -/
def buildGroupsAux (f : α → Option κ) :
    List (Option κ × List α) → List α → List (Option κ × List α)
  | gs, [] => gs
  | gs, x :: xs => buildGroupsAux f (addToGroups (f x) x gs) xs

/-- The insertion-ordered dict `group` built by `_group_by`. -/
def buildGroups (f : α → Option κ) (d : List α) : List (Option κ × List α) :=
  buildGroupsAux f [] d

/-- The child built from a non-null bucket `(k, v)`:
`name = str(k); key = k`, then under `name_field`
`key = getattr(k, name_field); name = str(key)`. -/
def childOfBucket (nf : Option (κ → Option κ)) (strFn : κ → String)
    (k : κ) (v : List α) : RU α κ :=
  match nf with
  | none => RU.leaf (some (strFn k)) (some k) v
  | some g => RU.leaf (some (strOpt strFn (g k))) (g k) v

/-- The children made of the non-null buckets, in dict order (the
`else` branch of the `for (k, v) in group.items()` loop). -/
def nonNullChildren (nf : Option (κ → Option κ)) (strFn : κ → String)
    (gs : List (Option κ × List α)) : List (RU α κ) :=
  gs.filterMap (fun kv =>
    match kv.1 with
    | some k => some (childOfBucket nf strFn k kv.2)
    | none => none)

/-- The `unknown_data` list: the contents of the null-keyed bucket
(`unknown_data.extend(v)` for every dict entry with `k == None`). -/
def unknownDataOf (gs : List (Option κ × List α)) : List α :=
  ((gs.filter (fun kv => kv.1.isNone)).map (fun kv => kv.2)).flatten

/-- The children list of `_group_by` before the final `sort()`:
non-null buckets in dict order, then (when `unknown_data` is non-empty,
Python truthiness) the synthetic `Unknown` child appended last. -/
def preChildren (f : α → Option κ) (nf : Option (κ → Option κ))
    (strFn : κ → String) (d : List α) : List (RU α κ) :=
  let gs := buildGroups f d
  if (unknownDataOf gs).isEmpty then nonNullChildren nf strFn gs
  else nonNullChildren nf strFn gs ++
    [RU.leaf (some "Unknown") none (unknownDataOf gs)]

/-- Python `<` on strings, restricted to two code points: comparison by
code point. -/
def pyCharLt (a b : Char) : Bool := decide (a.toNat < b.toNat)

/-- Python `<=` on strings as lists of code points: lexicographic,
first differing code point decides, a prefix is `<=` its extensions. -/
def pyStrLeAux : List Char → List Char → Bool
  | [], _ => true
  | _ :: _, [] => false
  | a :: as, b :: bs =>
      if pyCharLt a b then true
      else if pyCharLt b a then false
      else pyStrLeAux as bs

/-- Python `<=` on strings (code-point lexicographic order; it agrees
with Lean's `String` order). -/
def pyStrLe (s t : String) : Bool := pyStrLeAux s.data t.data

/-- Insert `x` after every already-placed element `y` with `le y x`;
the insertion step of a stable insertion sort. -/
def insertSorted (le : β → β → Bool) (x : β) : List β → List β
  | [] => [x]
  | y :: ys => if le y x then y :: insertSorted le x ys else x :: y :: ys

/-- Stable sort wrt `le` (the semantics of Python `list.sort()` for a
total transitive `le`: the stable sorted permutation is unique). -/
def pySort (le : β → β → Bool) (l : List β) : List β :=
  l.foldl (fun acc x => insertSorted le x acc) []

/-- The order `list.sort()` uses on grouping children: `RU_COMPARATOR`
with field list `['name']` compares the `name` attributes, which are all
strings (`str(k)` or `'Unknown'`) at this call site; `strN` is the
identity there and the comparison is Python string comparison. -/
def ruNameLe (a b : RU α κ) : Bool :=
  pyStrLe (strN a.nameOf) (strN b.nameOf)

/-- `_group_by` on a node: buckets `self.data` by the expression value,
replaces `children` with the sorted bucket children, leaves `name`,
`key` and `data` untouched. -/
def groupByLeaf (f : α → Option κ) (nf : Option (κ → Option κ))
    (strFn : κ → String) (nm : Option String) (ky : Option κ)
    (d : List α) : RU α κ :=
  RU.node nm ky d (pySort ruNameLe (preChildren f nf strFn d))

mutual

/-- `group_hierarchy_by`: `_group_by` on a node whose `children == None`,
otherwise recurse into every child. -/
def groupHierarchyBy (f : α → Option κ) (nf : Option (κ → Option κ))
    (strFn : κ → String) : RU α κ → RU α κ
  | .leaf nm ky d => groupByLeaf f nf strFn nm ky d
  | .node nm ky d cs => .node nm ky d (groupHierarchyByList f nf strFn cs)
termination_by t => sizeOf t

/-- The `for c in self.children: c.group_hierarchy_by(...)` loop. -/
def groupHierarchyByList (f : α → Option κ) (nf : Option (κ → Option κ))
    (strFn : κ → String) : List (RU α κ) → List (RU α κ)
  | [] => []
  | c :: cs =>
      groupHierarchyBy f nf strFn c :: groupHierarchyByList f nf strFn cs
termination_by l => sizeOf l

end

/-- `ImmutableRollerUpper.mutable()`:
`RollerUpper(name=self.name, data=self.data, children=self.children)`
(the `key` is not forwarded). -/
def mutableCopy (t : RU α κ) : Except String (RU α κ) :=
  initRU t.nameOf none (some t.dataOf) t.childrenOf

/-- `ImmutableRollerUpper.group_hierarchy_by`: make the mutable copy,
group it, return it. -/
def immutableGroupHierarchyBy (f : α → Option κ)
    (nf : Option (κ → Option κ)) (strFn : κ → String) (t : RU α κ) :
    Except String (RU α κ) :=
  (mutableCopy t).map (groupHierarchyBy f nf strFn)

/-- The per-child match test of `get_children`:
`if name != None: str(c.name) == str(name)`
`elif key != None: c.key == key`. -/
def gcHit (nmq : Option String) (kyq : Option κ) (c : RU α κ) :
    List (RU α κ) :=
  match nmq with
  | some nm => if strN c.nameOf = nm then [c] else []
  | none =>
      match kyq with
      | some k => if c.keyOf = some k then [c] else []
      | none => []

/-- The `for c in self.children` loop of `get_children`: per child, the
direct hit, then (when `recursive` and the child is internal) the
matches of the full recursive call (which never sets `_first_only`),
breaking once the accumulated result is non-empty under `_first_only`. -/
def gcList (nmq : Option String) (kyq : Option κ) (recursive fo : Bool) :
    List (RU α κ) → List (RU α κ)
  | [] => []
  | c :: cs =>
      let deep :=
        match c with
        | .leaf _ _ _ => []
        | .node _ _ _ gcs =>
            if recursive then gcList nmq kyq recursive false gcs else []
      let r := gcHit nmq kyq c ++ deep
      if fo && !r.isEmpty then r else r ++ gcList nmq kyq recursive fo cs
termination_by l => sizeOf l
decreasing_by
  all_goals simp only [RU.node.sizeOf_spec, List.cons.sizeOf_spec]
  all_goals omega

/-- `get_children(name, key, recursive, _first_only)`: asserts that a
criterion is present, iterates the children (`TypeError` on a leaf),
and wraps the matches as the children of a new `RollerUpper`. -/
def get_children (t : RU α κ) (nmq : Option String) (kyq : Option κ)
    (recursive fo : Bool) : Except String (RU α κ) :=
  if nmq.isNone && kyq.isNone then .error "must specify name or key"
  else
    match t.childrenOf with
    | none => .error "TypeError: NoneType is not iterable"
    | some cs => initRU nmq kyq none (some (gcList nmq kyq recursive fo cs))

/-- `get_child(name, recursive)`: the call
`self.get_children(name, recursive, _first_only=True)` passes `recursive`
positionally into the `key` slot of `get_children`, whose own `recursive`
parameter keeps its default `True`.  With `name` given, the `key` slot is
dead (the assertion passes and the `elif key != None` branch is shadowed),
so the bool that landed there is modelled by `none`. -/
def get_child (t : RU α κ) (nm : String) ( recursive : Bool) :
    Except String (Option (RU α κ)) :=
  match get_children t (some nm) none true true with
  | .error e => .error e
  | .ok r =>
      match r.childrenOf with
      | some (c :: _) => .ok (some c)
      | _ => .ok none

end Grouping

/-- Strong induction over `RU` trees (recursion into all children). -/
def RU.inductionOn {motive : RU α κ → Prop}
    (hleaf : ∀ nm ky d, motive (.leaf nm ky d))
    (hnode : ∀ nm ky d cs, (∀ c, c ∈ cs → motive c) →
      motive (.node nm ky d cs)) :
    ∀ t, motive t
  | .leaf nm ky d => hleaf nm ky d
  | .node nm ky d cs =>
      hnode nm ky d cs (fun c hc => RU.inductionOn hleaf hnode c)
termination_by t => sizeOf t
decreasing_by
  have h1 := List.sizeOf_lt_of_mem hc
  simp only [RU.node.sizeOf_spec]
  omega

/-- Induction over lists of `RU` trees that also recurses into the
children of the head (the recursion pattern of `get_children`). -/
def ruListInduction {motive : List (RU α κ) → Prop}
    (hnil : motive [])
    (hcons : ∀ c cs, (∀ gcs, c.childrenOf = some gcs → motive gcs) →
      motive cs → motive (c :: cs)) :
    ∀ l, motive l
  | [] => hnil
  | c :: cs =>
      hcons c cs (fun gcs hg => ruListInduction hnil hcons gcs)
        (ruListInduction hnil hcons cs)
termination_by l => sizeOf l
decreasing_by
  · cases c with
    | leaf nm ky d => simp [RU.childrenOf] at hg
    | node nm ky d cs2 =>
        simp only [RU.childrenOf, Option.some.injEq] at hg
        subst hg
        simp only [RU.node.sizeOf_spec, List.cons.sizeOf_spec]
        omega
  · simp only [List.cons.sizeOf_spec]
    omega

/-- Correspondence between a tree and the result of grouping it: every
node of the original tree is matched by a node with the same `name`,
`key` and `data`; children lists of internal nodes correspond pointwise,
and only the (former) leaves may have acquired new children. -/
inductive DataFramed : RU α κ → RU α κ → Prop where
  | leaf : ∀ nm ky d (t2 : RU α κ), t2.nameOf = nm → t2.keyOf = ky →
      t2.dataOf = d → DataFramed (.leaf nm ky d) t2
  | nodeNil : ∀ nm ky d, DataFramed (.node nm ky d []) (.node nm ky d [])
  | nodeCons : ∀ nm ky d c cs c2 cs2, DataFramed c c2 →
      DataFramed (.node nm ky d cs) (.node nm ky d cs2) →
      DataFramed (.node nm ky d (c :: cs)) (.node nm ky d (c2 :: cs2))

end RollerUpper

namespace GenericCompare

variable {ο : Type} {ρ : Type}

/-- `GenericComparator(fieldnames)`: the field-name strings resolved by
`getattr` are embedded as accessor functions. -/
structure GenericComparator (ο ρ : Type) where
  fieldnames : List (ο → ρ)

/-- `_key(o) = [getattr(o, x) for x in self.fieldnames]`. -/
def GenericComparator.keyList (c : GenericComparator ο ρ) (o : ο) :
    List ρ :=
  c.fieldnames.map (fun f => f o)

/-- Python `<` on lists of mutually comparable elements: lexicographic,
first differing element decides, a strict prefix is smaller. -/
def pyListLt [LinearOrder ρ] : List ρ → List ρ → Bool
  | [], [] => false
  | [], _ :: _ => true
  | _ :: _, [] => false
  | a :: as, b :: bs =>
      if a < b then true else if b < a then false else pyListLt as bs

/-- `GenericComparator.lt(o1, o2) = self._key(o1) < self._key(o2)`. -/
def GenericComparator.lt [LinearOrder ρ] (c : GenericComparator ο ρ)
    (o1 o2 : ο) : Bool :=
  pyListLt (c.keyList o1) (c.keyList o2)

/-- `GenericComparator.gt(o1, o2) = self._key(o1) > self._key(o2)`;
Python list `>` is the mirror image of list `<`. -/
def GenericComparator.gt [LinearOrder ρ] (c : GenericComparator ο ρ)
    (o1 o2 : ο) : Bool :=
  pyListLt (c.keyList o2) (c.keyList o1)

/-- `GenericComparator.eq(o1, o2) = self._key(o1) == self._key(o2)`. -/
def GenericComparator.eq [DecidableEq ρ] (c : GenericComparator ο ρ)
    (o1 o2 : ο) : Bool :=
  decide (c.keyList o1 = c.keyList o2)

end GenericCompare

namespace RollerUpper

variable {α : Type} {κ : Type}

/-- `RU_COMPARATOR = GenericComparator(['name'])`: the single field is
the node's `name` attribute, a string at every grouping call site
(`strN` is then the identity). -/
def ruComparator : GenericCompare.GenericComparator (RU α κ) String :=
  ⟨[fun t => strN t.nameOf]⟩

end RollerUpper

namespace RollerUpper

section StrOrder

theorem pyStrLeAux_cons (a b : Char) (as bs : List Char) :
    pyStrLeAux (a :: as) (b :: bs) =
      if a.toNat < b.toNat then true
      else if b.toNat < a.toNat then false
      else pyStrLeAux as bs := by
  simp [pyStrLeAux, pyCharLt]

theorem pyStrLeAux_total : ∀ xs ys : List Char,
    pyStrLeAux xs ys = true ∨ pyStrLeAux ys xs = true
  | [], _ => .inl rfl
  | _ :: _, [] => .inr rfl
  | a :: as, b :: bs => by
    rw [pyStrLeAux_cons, pyStrLeAux_cons]
    rcases Nat.lt_trichotomy a.toNat b.toNat with h | h | h
    · left; simp [h]
    · have h1 : ¬ a.toNat < b.toNat := by omega
      have h2 : ¬ b.toNat < a.toNat := by omega
      simpa [h1, h2] using pyStrLeAux_total as bs
    · right; simp [h]

theorem pyStrLeAux_trans : ∀ xs ys zs : List Char,
    pyStrLeAux xs ys = true → pyStrLeAux ys zs = true →
    pyStrLeAux xs zs = true
  | [], _, _, _, _ => rfl
  | _ :: _, [], _, h1, _ => by simp [pyStrLeAux] at h1
  | _ :: _, _ :: _, [], _, h2 => by simp [pyStrLeAux] at h2
  | a :: as, b :: bs, c :: cs, h1, h2 => by
    rw [pyStrLeAux_cons] at h1 h2 ⊢
    rcases Nat.lt_trichotomy a.toNat b.toNat with hab | hab | hab <;>
      rcases Nat.lt_trichotomy b.toNat c.toNat with hbc | hbc | hbc
    · have hac : a.toNat < c.toNat := by omega
      simp [hac]
    · have hac : a.toNat < c.toNat := by omega
      simp [hac]
    · have hx : ¬ b.toNat < c.toNat := by omega
      simp [hx, hbc] at h2
    · have hac : a.toNat < c.toNat := by omega
      simp [hac]
    · have hx1 : ¬ a.toNat < b.toNat := by omega
      have hx2 : ¬ b.toNat < a.toNat := by omega
      have hx3 : ¬ b.toNat < c.toNat := by omega
      have hx4 : ¬ c.toNat < b.toNat := by omega
      have hx5 : ¬ a.toNat < c.toNat := by omega
      have hx6 : ¬ c.toNat < a.toNat := by omega
      simp only [hx1, hx2, if_false] at h1
      simp only [hx3, hx4, if_false] at h2
      simp only [hx5, hx6, if_false]
      exact pyStrLeAux_trans as bs cs h1 h2
    · have hx : ¬ b.toNat < c.toNat := by omega
      simp [hx, hbc] at h2
    · have hx : ¬ a.toNat < b.toNat := by omega
      simp [hx, hab] at h1
    · have hx : ¬ a.toNat < b.toNat := by omega
      simp [hx, hab] at h1
    · have hx : ¬ a.toNat < b.toNat := by omega
      simp [hx, hab] at h1

theorem pyStrLe_total (s t : String) :
    pyStrLe s t = true ∨ pyStrLe t s = true :=
  pyStrLeAux_total s.data t.data

theorem pyStrLe_trans (s t u : String) (h1 : pyStrLe s t = true)
    (h2 : pyStrLe t u = true) : pyStrLe s u = true :=
  pyStrLeAux_trans s.data t.data u.data h1 h2

end StrOrder

section SortLemmas

variable {β : Type} (le : β → β → Bool)

theorem insertSorted_perm (x : β) (l : List β) :
    List.Perm (insertSorted le x l) (x :: l) := by
  induction l with
  | nil => exact List.Perm.refl _
  | cons y ys ih =>
    by_cases h : le y x = true
    · simp only [insertSorted, h, if_true]
      exact (ih.cons y).trans (List.Perm.swap x y ys)
    · simp only [insertSorted, h, if_false]
      exact List.Perm.refl _

theorem foldl_insertSorted_perm (l : List β) : ∀ acc : List β,
    List.Perm (l.foldl (fun a x => insertSorted le x a) acc) (acc ++ l) := by
  induction l with
  | nil => intro acc; simp
  | cons x xs ih =>
    intro acc
    simp only [List.foldl_cons]
    refine (ih (insertSorted le x acc)).trans ?_
    refine (((insertSorted_perm le x acc).append_right xs).trans ?_)
    exact List.perm_middle.symm

theorem pySort_perm (l : List β) : List.Perm (pySort le l) l := by
  simpa using foldl_insertSorted_perm le l []

theorem insertSorted_pairwise
    (htot : ∀ a b, le a b = true ∨ le b a = true)
    (htrans : ∀ a b c, le a b = true → le b c = true → le a c = true)
    (x : β) (l : List β) (h : l.Pairwise (fun a b => le a b = true)) :
    (insertSorted le x l).Pairwise (fun a b => le a b = true) := by
  induction l with
  | nil => simp [insertSorted]
  | cons y ys ih =>
    rcases List.pairwise_cons.mp h with ⟨hy, hys⟩
    by_cases hle : le y x = true
    · simp only [insertSorted, hle, if_true]
      refine List.pairwise_cons.mpr ⟨?_, ih hys⟩
      intro z hz
      rcases List.mem_cons.mp ((insertSorted_perm le x ys).mem_iff.mp hz) with
        rfl | hz2
      · exact hle
      · exact hy z hz2
    · simp only [insertSorted, hle, if_false]
      have hxy : le x y = true := (htot x y).resolve_right (by
        intro hc; exact hle hc)
      refine List.pairwise_cons.mpr ⟨?_, h⟩
      intro z hz
      rcases List.mem_cons.mp hz with rfl | hz2
      · exact hxy
      · exact htrans x y z hxy (hy z hz2)

theorem pySort_pairwise
    (htot : ∀ a b, le a b = true ∨ le b a = true)
    (htrans : ∀ a b c, le a b = true → le b c = true → le a c = true)
    (l : List β) :
    (pySort le l).Pairwise (fun a b => le a b = true) := by
  have main : ∀ (l acc : List β),
      acc.Pairwise (fun a b => le a b = true) →
      (l.foldl (fun a x => insertSorted le x a) acc).Pairwise
        (fun a b => le a b = true) := by
    intro l
    induction l with
    | nil => intro acc hacc; simpa using hacc
    | cons x xs ih =>
      intro acc hacc
      simp only [List.foldl_cons]
      exact ih _ (insertSorted_pairwise le htot htrans x acc hacc)
  exact main l [] (List.Pairwise.nil)

end SortLemmas

end RollerUpper

namespace RollerUpper

section GroupsLemmas

variable {α : Type} {κ : Type} [DecidableEq κ]

theorem addToGroups_coherent (f : α → Option κ) (x : α) :
    ∀ gs : List (Option κ × List α),
    (∀ kv ∈ gs, ∀ y ∈ kv.2, f y = kv.1) →
    ∀ kv ∈ addToGroups (f x) x gs, ∀ y ∈ kv.2, f y = kv.1
  | [], _, kv, hkv, y, hy => by
    simp only [addToGroups, List.mem_singleton] at hkv
    subst hkv
    simp only [List.mem_singleton] at hy
    subst hy
    rfl
  | (k, xs) :: rest, h, kv, hkv, y, hy => by
    by_cases hk : k = f x
    · simp only [addToGroups] at hkv
      rw [if_pos hk, List.mem_cons] at hkv
      rcases hkv with hkv | hkv
      · subst hkv
        simp only at hy
        rcases List.mem_append.mp hy with hy | hy
        · exact h (k, xs) (List.mem_cons_self _ _) y hy
        · simp only [List.mem_singleton] at hy
          subst hy
          exact hk.symm
      · exact h kv (List.mem_cons_of_mem _ hkv) y hy
    · simp only [addToGroups] at hkv
      rw [if_neg hk, List.mem_cons] at hkv
      rcases hkv with hkv | hkv
      · subst hkv
        exact h (k, xs) (List.mem_cons_self _ _) y hy
      · exact addToGroups_coherent f x rest
          (fun kv2 hkv2 => h kv2 (List.mem_cons_of_mem _ hkv2)) kv hkv y hy

theorem buildGroupsAux_coherent (f : α → Option κ) :
    ∀ (d : List α) (gs : List (Option κ × List α)),
    (∀ kv ∈ gs, ∀ y ∈ kv.2, f y = kv.1) →
    ∀ kv ∈ buildGroupsAux f gs d, ∀ y ∈ kv.2, f y = kv.1
  | [], gs, h => h
  | x :: xs, gs, h =>
      buildGroupsAux_coherent f xs (addToGroups (f x) x gs)
        (addToGroups_coherent f x gs h)

theorem buildGroups_coherent (f : α → Option κ) (d : List α) :
    ∀ kv ∈ buildGroups f d, ∀ y ∈ kv.2, f y = kv.1 :=
  buildGroupsAux_coherent f d [] (by intro kv hkv; simp at hkv)

theorem addToGroups_flatten_perm (v : Option κ) (x : α) :
    ∀ gs : List (Option κ × List α),
    List.Perm ((addToGroups v x gs).map Prod.snd).flatten
      ((gs.map Prod.snd).flatten ++ [x])
  | [] => by simp [addToGroups]
  | (k, xs) :: rest => by
    by_cases hk : k = v
    · simp only [addToGroups]
      rw [if_pos hk]
      simp only [List.map_cons, List.flatten_cons]
      rw [List.append_assoc, List.append_assoc]
      refine List.Perm.append_left xs ?_
      exact List.perm_append_comm
    · simp only [addToGroups]
      rw [if_neg hk]
      simp only [List.map_cons, List.flatten_cons]
      rw [List.append_assoc]
      exact List.Perm.append_left xs (addToGroups_flatten_perm v x rest)

theorem buildGroupsAux_flatten_perm (f : α → Option κ) :
    ∀ (d : List α) (gs : List (Option κ × List α)),
    List.Perm ((buildGroupsAux f gs d).map Prod.snd).flatten
      ((gs.map Prod.snd).flatten ++ d)
  | [], gs => by simp [buildGroupsAux]
  | x :: xs, gs => by
    simp only [buildGroupsAux]
    refine (buildGroupsAux_flatten_perm f xs (addToGroups (f x) x gs)).trans ?_
    refine ((addToGroups_flatten_perm (f x) x gs).append_right xs).trans ?_
    simp

theorem buildGroups_flatten_perm (f : α → Option κ) (d : List α) :
    List.Perm ((buildGroups f d).map Prod.snd).flatten d := by
  simpa [buildGroups] using buildGroupsAux_flatten_perm f d []

theorem concatData_append (l1 l2 : List (RU α κ)) :
    concatData (l1 ++ l2) = concatData l1 ++ concatData l2 := by
  simp [concatData]

theorem dataOf_childOfBucket (nf : Option (κ → Option κ))
    (strFn : κ → String) (k : κ) (v : List α) :
    (childOfBucket nf strFn k v).dataOf = v := by
  cases nf <;> rfl

theorem concatData_nonNullChildren (nf : Option (κ → Option κ))
    (strFn : κ → String) :
    ∀ gs : List (Option κ × List α),
    concatData (nonNullChildren nf strFn gs) =
      ((gs.filter (fun kv => kv.1.isSome)).map Prod.snd).flatten
  | [] => rfl
  | (k, xs) :: rest => by
    cases k with
    | none =>
        simp only [nonNullChildren, List.filterMap_cons]
        simpa [nonNullChildren] using concatData_nonNullChildren nf strFn rest
    | some k0 =>
        have ih := concatData_nonNullChildren nf strFn rest
        simp only [nonNullChildren, List.filterMap_cons] at ih ⊢
        rw [List.filter_cons_of_pos (by simp)]
        simp only [concatData, List.map_cons, List.flatten_cons,
          dataOf_childOfBucket]
        simp only [concatData] at ih
        rw [ih]

theorem flatten_split_perm :
    ∀ gs : List (Option κ × List α),
    List.Perm ((gs.map Prod.snd).flatten)
      (((gs.filter (fun kv => kv.1.isSome)).map Prod.snd).flatten ++
        unknownDataOf gs) := by
  intro gs
  have hsplit := List.filter_append_perm
    (fun kv : Option κ × List α => kv.1.isSome) gs
  have hfil : gs.filter (fun kv => !kv.1.isSome) =
      gs.filter (fun kv => kv.1.isNone) := by
    apply List.filter_congr
    intro kv _
    cases kv.1 <;> simp
  have h2 : List.Perm
      (((gs.filter (fun kv => kv.1.isSome)).map Prod.snd).flatten ++
        ((gs.filter (fun kv => kv.1.isNone)).map Prod.snd).flatten)
      ((gs.map Prod.snd).flatten) := by
    rw [← List.flatten_append, ← List.map_append, ← hfil]
    exact (hsplit.map Prod.snd).flatten
  exact h2.symm

theorem concatData_preChildren_perm (f : α → Option κ)
    (nf : Option (κ → Option κ)) (strFn : κ → String) (d : List α) :
    List.Perm (concatData (preChildren f nf strFn d)) d := by
  have hflat := buildGroups_flatten_perm f d
  have hsplit := flatten_split_perm (buildGroups f d)
  by_cases hempty : (unknownDataOf (buildGroups f d)).isEmpty = true
  · have hud : unknownDataOf (buildGroups f d) = [] :=
      List.isEmpty_iff.mp hempty
    simp only [preChildren, hempty, if_true]
    rw [concatData_nonNullChildren]
    have h2 : List.Perm
        (((List.filter (fun kv => kv.1.isSome) (buildGroups f d)).map
          Prod.snd).flatten)
        (((buildGroups f d).map Prod.snd).flatten) := by
      have h3 := hsplit.symm
      rw [hud, List.append_nil] at h3
      exact h3
    exact h2.trans hflat
  · have hne : (unknownDataOf (buildGroups f d)).isEmpty = false :=
      Bool.not_eq_true _ ▸ hempty
    simp only [preChildren, hne, Bool.false_eq_true, if_false]
    rw [concatData_append, concatData_nonNullChildren]
    have h4 : concatData [(RU.leaf (some "Unknown") none
        (unknownDataOf (buildGroups f d)) : RU α κ)] =
        unknownDataOf (buildGroups f d) := by
      simp [concatData, RU.dataOf]
    rw [h4]
    exact hsplit.symm.trans hflat

theorem concatData_perm_of_perm {cs1 cs2 : List (RU α κ)}
    (h : List.Perm cs1 cs2) : List.Perm (concatData cs1) (concatData cs2) :=
  (h.map RU.dataOf).flatten

theorem groupByLeaf_childrenOf (f : α → Option κ)
    (nf : Option (κ → Option κ)) (strFn : κ → String) (nm : Option String)
    (ky : Option κ) (d : List α) :
    (groupByLeaf f nf strFn nm ky d).childrenOf =
      some (pySort ruNameLe (preChildren f nf strFn d)) := rfl

theorem groupByLeaf_dataOf (f : α → Option κ)
    (nf : Option (κ → Option κ)) (strFn : κ → String) (nm : Option String)
    (ky : Option κ) (d : List α) :
    (groupByLeaf f nf strFn nm ky d).dataOf = d := rfl

end GroupsLemmas

end RollerUpper

namespace RollerUpper

section ClaimOne

variable {α : Type} {κ : Type} [DecidableEq κ]

theorem groupByLeaf_concat_perm (f : α → Option κ)
    (nf : Option (κ → Option κ)) (strFn : κ → String) (nm : Option String)
    (ky : Option κ) (d : List α) :
    List.Perm
      (concatData ((groupByLeaf f nf strFn nm ky d).childrenOf.getD [])) d := by
  rw [groupByLeaf_childrenOf]
  simp only [Option.getD_some]
  exact (concatData_perm_of_perm (pySort_perm ruNameLe _)).trans
    (concatData_preChildren_perm f nf strFn d)

/-- C1: for every leaf node and every grouping expression, the multiset
union of the items of the children produced by `_group_by` equals the
node's original items (no loss, no duplication), including empty items:
the concatenation of the children's `data` is a permutation of `data`. -/
theorem groupBy_partition_property (f : α → Option κ)
    (nf : Option (κ → Option κ)) (strFn : κ → String) (nm : Option String)
    (ky : Option κ) (d : List α) :
    List.Perm
      (concatData ((groupByLeaf f nf strFn nm ky d).childrenOf.getD [])) d :=
  groupByLeaf_concat_perm f nf strFn nm ky d

/-- C3, counterexample: grouping the leaf `[2, 1]` by the identity
expression sorts the children as `["1", "2"]`, so the node's own items
`[2, 1]` are no longer the concatenation `[1, 2]` of the children's
items in the children's current order. -/
theorem items_neq_children_concat_after_grouping :
    ((groupByLeaf (fun n : Nat => some n) none
        (fun n => if n = 1 then "1" else "2") (some "r") none
        [2, 1]).dataOf ≠
      concatData ((groupByLeaf (fun n : Nat => some n) none
        (fun n => if n = 1 then "1" else "2") (some "r") none
        [2, 1]).childrenOf.getD [])) := by
  decide

/-- C3 amended: for an internal node built by the children constructor,
`items` is exactly the concatenation of the children's items in order;
after a grouping operation the grouped node's `items` is a permutation
of the concatenation of its children's items (same multiset, but not
necessarily in the children's sorted order). -/
theorem internal_items_concat_of_children (nm : Option String)
    (ky : Option κ) :
    (∀ cs : List (RU α κ),
      initRU nm ky none (some cs) = .ok (.node nm ky (concatData cs) cs))
    ∧ ∀ (f : α → Option κ) (nf : Option (κ → Option κ))
        (strFn : κ → String) (d : List α),
        List.Perm (groupByLeaf f nf strFn nm ky d).dataOf
          (concatData ((groupByLeaf f nf strFn nm ky d).childrenOf.getD [])) := by
  constructor
  · intro cs
    rfl
  · intro f nf strFn d
    rw [groupByLeaf_dataOf]
    exact (groupByLeaf_concat_perm f nf strFn nm ky d).symm

end ClaimOne

end RollerUpper

namespace RollerUpper

section ClaimTen

variable {α : Type} {κ : Type} [DecidableEq κ]

theorem groupHierarchyBy_leaf (f : α → Option κ)
    (nf : Option (κ → Option κ)) (strFn : κ → String) (nm : Option String)
    (ky : Option κ) (d : List α) :
    groupHierarchyBy f nf strFn (.leaf nm ky d) =
      groupByLeaf f nf strFn nm ky d := by
  simp [groupHierarchyBy]

theorem groupHierarchyBy_node (f : α → Option κ)
    (nf : Option (κ → Option κ)) (strFn : κ → String) (nm : Option String)
    (ky : Option κ) (d : List α) (cs : List (RU α κ)) :
    groupHierarchyBy f nf strFn (.node nm ky d cs) =
      .node nm ky d (groupHierarchyByList f nf strFn cs) := by
  simp [groupHierarchyBy]

theorem groupHierarchyByList_nil (f : α → Option κ)
    (nf : Option (κ → Option κ)) (strFn : κ → String) :
    groupHierarchyByList f nf strFn ([] : List (RU α κ)) = [] := by
  simp [groupHierarchyByList]

theorem groupHierarchyByList_cons (f : α → Option κ)
    (nf : Option (κ → Option κ)) (strFn : κ → String) (c : RU α κ)
    (cs : List (RU α κ)) :
    groupHierarchyByList f nf strFn (c :: cs) =
      groupHierarchyBy f nf strFn c :: groupHierarchyByList f nf strFn cs := by
  simp [groupHierarchyByList]

/-- C10: `group_hierarchy_by` never modifies any node's own `data`: every
node of the original tree corresponds to a node of the result with the
same `name`, `key` and the identical `data` sequence; only `children`
is replaced (at the grouped leaves). -/
theorem grouping_preserves_all_items (f : α → Option κ)
    (nf : Option (κ → Option κ)) (strFn : κ → String) :
    ∀ t : RU α κ, DataFramed t (groupHierarchyBy f nf strFn t) := by
  intro t
  induction t using RU.inductionOn with
  | hleaf nm ky d =>
      rw [groupHierarchyBy_leaf]
      exact DataFramed.leaf nm ky d _ rfl rfl rfl
  | hnode nm ky d cs ih =>
      rw [groupHierarchyBy_node]
      have main : ∀ cs2 : List (RU α κ),
          (∀ c ∈ cs2, DataFramed c (groupHierarchyBy f nf strFn c)) →
          DataFramed (RU.node nm ky d cs2)
            (RU.node nm ky d (groupHierarchyByList f nf strFn cs2)) := by
        intro cs2
        induction cs2 with
        | nil =>
            intro _
            rw [groupHierarchyByList_nil]
            exact DataFramed.nodeNil nm ky d
        | cons c cs3 ihl =>
            intro hmem
            rw [groupHierarchyByList_cons]
            exact DataFramed.nodeCons nm ky d c cs3 _ _
              (hmem c (List.mem_cons_self c cs3))
              (ihl (fun c2 h2 => hmem c2 (List.mem_cons_of_mem _ h2)))
      exact main cs ih

/-- C2 (failing evaluation): an `ImmutableRollerUpper` that is an internal
node with one child holding one item is produced by the children
constructor, yet its `group_hierarchy_by` raises the constructor
assertion inside `mutable()` (which passes both a non-empty `data` and a
non-empty `children`) instead of returning a fresh grouped tree. -/
theorem immutable_group_hierarchy_raises_on_internal :
    initRU (some "r") (none : Option Nat) none
        (some [RU.leaf (some "c") none [0]]) =
      .ok (RU.node (some "r") none [0] [RU.leaf (some "c") none [0]])
    ∧ immutableGroupHierarchyBy (fun n : Nat => some n) none (fun _ => "")
        (RU.node (some "r") none [0] [RU.leaf (some "c") none [0]]) =
      .error "data or children must be specified, not both" := by
  constructor
  · rfl
  · rfl

end ClaimTen

end RollerUpper

namespace RollerUpper

section ClaimSix

variable {α : Type} {κ : Type} [DecidableEq κ]

/-- C6 counterexample: the constructor is given BOTH arguments — items
`[0]` and a children list `[]` — yet raises no error: the truthiness
check misses the case where one of the two lists is empty, and the
children branch silently wins (discarding the passed items). -/
theorem init_with_both_args_succeeds :
    initRU (some "r") (none : Option Nat) (some [0])
        (some ([] : List (RU Nat Nat))) =
      .ok (RU.node (some "r") none [] []) := rfl

/-- C6 amended: the constructor fails exactly when both arguments are
`None` or both are non-empty lists; given exactly one argument it
succeeds — a leaf holding the given items, or an internal node whose
items are the concatenation of the children's items; given both where
at least one is empty it also succeeds, the children argument winning. -/
theorem init_error_iff (nm : Option String) (ky : Option κ)
    (dt : Option (List α)) (ch : Option (List (RU α κ))) :
    (isErr (initRU nm ky dt ch) = true ↔
      (dt = none ∧ ch = none) ∨
        (truthyList dt = true ∧ truthyList ch = true))
    ∧ (∀ d, dt = some d → ch = none →
        initRU nm ky dt ch = .ok (.leaf nm ky d))
    ∧ (∀ cs, ch = some cs →
        ¬(truthyList dt = true ∧ truthyList ch = true) →
        initRU nm ky dt ch = .ok (.node nm ky (concatData cs) cs)) := by
  refine ⟨?_, ?_, ?_⟩
  · cases dt with
    | none =>
        cases ch with
        | none => simp [initRU, isErr, truthyList]
        | some cs => simp [initRU, isErr, truthyList]
    | some d =>
        cases ch with
        | none => simp [initRU, isErr, truthyList]
        | some cs =>
            by_cases hd : d.isEmpty <;> by_cases hc : cs.isEmpty <;>
              simp [initRU, isErr, truthyList, hd, hc]
  · intro d hdt hch
    subst hdt
    subst hch
    simp [initRU, truthyList]
  · intro cs hch hno
    subst hch
    have hcond : (truthyList dt && truthyList (some cs)) = false := by
      by_cases h : truthyList dt = true
      · by_cases h2 : truthyList (some cs) = true
        · exact absurd ⟨h, h2⟩ hno
        · simp only [Bool.not_eq_true] at h2
          simp [h2]
      · simp only [Bool.not_eq_true] at h
        simp [h]
    cases dt with
    | none => simp [initRU, truthyList] at hcond ⊢
    | some d => simp [initRU, hcond]

/-- C6 amended, witness: the leaf-success clause applied at a concrete
input. -/
theorem init_error_iff_witness :
    initRU (some "a") (none : Option Nat) (some [3]) none =
      .ok (RU.leaf (some "a") none [3]) :=
  (init_error_iff (some "a") none (some [3]) none).2.1 [3] rfl rfl

end ClaimSix

end RollerUpper

namespace RollerUpper

section ClaimEight

/-- C8: `get_child` ignores its `recursive` argument (the call site
passes it positionally into the `key` slot of `get_children`, whose own
`recursive` parameter keeps its default `True`): with `recursive=False`
it still returns the grandchild `"g"`, while `get_children` with
`recursive=False` finds no match at all, so `get_child` does not return
the first match of the equally-parameterised `get_children`. -/
theorem get_child_ignores_recursive_flag :
    get_child (RU.node (some "root") (none : Option Nat) [7]
        [RU.node (some "b") none [7] [RU.leaf (some "g") none [7]]])
        "g" false =
      .ok (some (RU.leaf (some "g") none [7]))
    ∧ get_children (RU.node (some "root") (none : Option Nat) [7]
        [RU.node (some "b") none [7] [RU.leaf (some "g") none [7]]])
        (some "g") none false false =
      .ok (RU.node (some "g") none [] []) := by
  constructor
  · simp [get_child, get_children, gcList, gcHit, strN, RU.childrenOf,
      RU.nameOf, initRU, truthyList, concatData, RU.dataOf]
  · simp [get_children, gcList, gcHit, strN, RU.childrenOf,
      RU.nameOf, initRU, truthyList, concatData, RU.dataOf]

end ClaimEight

end RollerUpper

namespace RollerUpper

section ClaimFour

variable {α : Type} {κ : Type} [DecidableEq κ]

theorem mem_unknownDataOf {f : α → Option κ} {d : List α} {x : α}
    (hx : x ∈ unknownDataOf (buildGroups f d)) : f x = none := by
  simp only [unknownDataOf, List.mem_flatten, List.mem_map,
    List.mem_filter] at hx
  obtain ⟨l, ⟨kv, ⟨hkv, hnone⟩, hsnd⟩, hxl⟩ := hx
  subst hsnd
  have := buildGroups_coherent f d kv hkv x hxl
  rw [this]
  exact Option.isNone_iff_eq_none.mp hnone

theorem mem_someFlatten {f : α → Option κ} {d : List α} {x : α}
    (hx : x ∈ ((List.filter (fun kv => kv.1.isSome) (buildGroups f d)).map
      Prod.snd).flatten) : (f x).isSome = true := by
  simp only [List.mem_flatten, List.mem_map, List.mem_filter] at hx
  obtain ⟨l, ⟨kv, ⟨hkv, hsome⟩, hsnd⟩, hxl⟩ := hx
  subst hsnd
  have := buildGroups_coherent f d kv hkv x hxl
  rw [this]
  exact hsome

theorem unknownData_perm_null_filter (f : α → Option κ) (d : List α) :
    List.Perm (unknownDataOf (buildGroups f d))
      (d.filter (fun x => (f x).isNone)) := by
  have hflat := buildGroups_flatten_perm f d
  have hsplit := flatten_split_perm (buildGroups f d)
  have h1 : List.Perm (d.filter (fun x => (f x).isNone))
      (((((buildGroups f d).filter (fun kv => kv.1.isSome)).map
        Prod.snd).flatten ++ unknownDataOf (buildGroups f d)).filter
        (fun x => (f x).isNone)) :=
    ((hflat.symm).trans hsplit).filter (fun x => (f x).isNone)
  rw [List.filter_append] at h1
  have h2 : (((((buildGroups f d).filter (fun kv => kv.1.isSome)).map
      Prod.snd).flatten).filter (fun x => (f x).isNone)) = [] := by
    rw [List.filter_eq_nil_iff]
    intro a ha
    have := mem_someFlatten (f := f) (d := d) ha
    simp [this, Option.isNone_iff_eq_none]
    exact Option.isSome_iff_ne_none.mp this
  have h3 : ((unknownDataOf (buildGroups f d)).filter
      (fun x => (f x).isNone)) = unknownDataOf (buildGroups f d) := by
    rw [List.filter_eq_self]
    intro a ha
    simp [mem_unknownDataOf ha]
  rw [h2, h3, List.nil_append] at h1
  exact h1.symm

theorem childOfBucket_not_synthetic (nf : Option (κ → Option κ))
    (strFn : κ → String) (k : κ) (v : List α) :
    ¬((childOfBucket nf strFn k v).nameOf = some "Unknown"
      ∧ (childOfBucket nf strFn k v).keyOf = none) := by
  cases nf with
  | none => simp [childOfBucket, RU.nameOf, RU.keyOf]
  | some g =>
      cases hk : g k with
      | none =>
          simp only [childOfBucket, hk, RU.nameOf, RU.keyOf, strOpt]
          intro h
          exact absurd h.1 (by decide)
      | some k2 => simp [childOfBucket, hk, RU.keyOf]

theorem nonNullChildren_mem {nf : Option (κ → Option κ)}
    {strFn : κ → String} {gs : List (Option κ × List α)} {c : RU α κ}
    (h : c ∈ nonNullChildren nf strFn gs) :
    ∃ k v, (some k, v) ∈ gs ∧ c = childOfBucket nf strFn k v := by
  simp only [nonNullChildren, List.mem_filterMap] at h
  obtain ⟨⟨k1, v⟩, hmem, heq⟩ := h
  cases k1 with
  | none => simp at heq
  | some k =>
      simp only [Option.some.injEq] at heq
      exact ⟨k, v, hmem, heq.symm⟩

/-- C4: on every grouping call, the items whose expression value is null
land in exactly one synthetic child, named `"Unknown"` with null key,
which is appended after all the other children before sorting; every
other child holds only non-null items and is never the synthetic
`Unknown`-named null-keyed child; and when no item's value is null no
such synthetic child is created at all. -/
theorem null_routing (f : α → Option κ) (nf : Option (κ → Option κ))
    (strFn : κ → String) (d : List α) :
    ((∀ x ∈ d, (f x).isSome = true) →
        preChildren f nf strFn d = nonNullChildren nf strFn (buildGroups f d)
        ∧ ∀ c ∈ preChildren f nf strFn d,
            ¬(c.nameOf = some "Unknown" ∧ c.keyOf = none))
    ∧ ((∃ x ∈ d, f x = none) →
        preChildren f nf strFn d =
          nonNullChildren nf strFn (buildGroups f d) ++
            [RU.leaf (some "Unknown") none (unknownDataOf (buildGroups f d))]
        ∧ List.Perm (unknownDataOf (buildGroups f d))
            (d.filter (fun x => (f x).isNone))
        ∧ (∀ c ∈ nonNullChildren nf strFn (buildGroups f d),
            (∀ x ∈ c.dataOf, (f x).isSome = true)
            ∧ ¬(c.nameOf = some "Unknown" ∧ c.keyOf = none))) := by
  have hperm := unknownData_perm_null_filter f d
  constructor
  · intro hall
    have hfil : d.filter (fun x => (f x).isNone) = [] := by
      rw [List.filter_eq_nil_iff]
      intro a ha
      simp only [Option.isNone_iff_eq_none]
      exact Option.isSome_iff_ne_none.mp (hall a ha)
    have hud : unknownDataOf (buildGroups f d) = [] := by
      have hlen := hperm.length_eq
      rw [hfil] at hlen
      exact List.length_eq_zero.mp hlen
    have hpre : preChildren f nf strFn d =
        nonNullChildren nf strFn (buildGroups f d) := by
      simp only [preChildren, hud, List.isEmpty_nil, if_true]
    refine ⟨hpre, ?_⟩
    intro c hc
    rw [hpre] at hc
    obtain ⟨k, v, _, hck⟩ := nonNullChildren_mem hc
    rw [hck]
    exact childOfBucket_not_synthetic nf strFn k v
  · intro hex
    have hfilne : d.filter (fun x => (f x).isNone) ≠ [] := by
      obtain ⟨x, hxd, hxnone⟩ := hex
      intro hnil
      rw [List.filter_eq_nil_iff] at hnil
      exact hnil x hxd (by simp [hxnone])
    have hudne : unknownDataOf (buildGroups f d) ≠ [] := by
      intro hnil
      have hlen := hperm.length_eq
      rw [hnil] at hlen
      exact hfilne (List.length_eq_zero.mp hlen.symm)
    have hne : (unknownDataOf (buildGroups f d)).isEmpty = false := by
      rw [List.isEmpty_eq_false_iff_exists_mem]
      exact List.exists_mem_of_ne_nil _ hudne
    have hpre : preChildren f nf strFn d =
        nonNullChildren nf strFn (buildGroups f d) ++
          [RU.leaf (some "Unknown") none (unknownDataOf (buildGroups f d))] := by
      simp only [preChildren, hne, Bool.false_eq_true, if_false]
    refine ⟨hpre, hperm, ?_⟩
    intro c hc
    obtain ⟨k, v, hkv, hck⟩ := nonNullChildren_mem hc
    constructor
    · intro x hx
      rw [hck, dataOf_childOfBucket] at hx
      have := buildGroups_coherent f d (some k, v) hkv x hx
      simp [this]
    · rw [hck]
      exact childOfBucket_not_synthetic nf strFn k v

/-- C4, witness: grouping `[3, 1, 2, 1]` where `1` maps to null routes
both copies of `1` into the synthetic `Unknown` child appended last
before sorting. -/
theorem null_routing_witness :
    preChildren (fun n : Nat => if n = 1 then none else some n) none
        (fun n => if n ≤ 2 then "2" else "3") [3, 1, 2, 1] =
      nonNullChildren none (fun n => if n ≤ 2 then "2" else "3")
          (buildGroups (fun n : Nat => if n = 1 then none else some n)
            [3, 1, 2, 1]) ++
        [RU.leaf (some "Unknown") none
          (unknownDataOf (buildGroups
            (fun n : Nat => if n = 1 then none else some n) [3, 1, 2, 1]))] :=
  ((null_routing (fun n : Nat => if n = 1 then none else some n) none
    (fun n => if n ≤ 2 then "2" else "3") [3, 1, 2, 1]).2
    ⟨1, by decide, by decide⟩).1

end ClaimFour

end RollerUpper

namespace RollerUpper

section ClaimFive

variable {α : Type} {κ : Type} [DecidableEq κ]

theorem pyStrLeAux_iff_not_lex : ∀ xs ys : List Char,
    pyStrLeAux xs ys = true ↔ ¬ List.Lex (· < ·) ys xs
  | [], ys =>
      iff_of_true (rfl : pyStrLeAux [] ys = true)
        (List.Lex.not_nil_right _ _)
  | x :: xs, [] =>
      iff_of_false (by simp [pyStrLeAux]) (not_not_intro List.Lex.nil)
  | x :: xs, y :: ys => by
    rw [pyStrLeAux_cons]
    rcases Nat.lt_trichotomy x.toNat y.toNat with h | h | h
    · refine iff_of_true (by simp [h]) ?_
      intro hlex
      cases hlex with
      | rel hr =>
          have hyx : y.toNat < x.toNat := hr
          omega
      | cons hc => omega
    · have hxy : x = y := Char.ext (UInt32.ext h)
      subst hxy
      have hni : ¬ x.toNat < x.toNat := by omega
      simp only [hni, if_false]
      constructor
      · intro hle hlex
        cases hlex with
        | rel hr =>
            have hxx : x.toNat < x.toNat := hr
            omega
        | cons hc => exact (pyStrLeAux_iff_not_lex xs ys).mp hle hc
      · intro hn
        exact (pyStrLeAux_iff_not_lex xs ys).mpr
          (fun hc => hn (List.Lex.cons hc))
    · have hni : ¬ x.toNat < y.toNat := by omega
      simp only [hni, if_false, h, if_true]
      exact iff_of_false (by simp)
        (not_not_intro (List.Lex.rel (show y.toNat < x.toNat from h)))

theorem pyStrLe_iff_le (s t : String) : pyStrLe s t = true ↔ s ≤ t := by
  rw [pyStrLe, pyStrLeAux_iff_not_lex, String.le_iff_toList_le, ← not_lt]
  exact Iff.rfl

theorem ruNameLe_iff (a b : RU α κ) :
    ruNameLe a b = true ↔ strN a.nameOf ≤ strN b.nameOf :=
  pyStrLe_iff_le (strN a.nameOf) (strN b.nameOf)

theorem ruNameLe_total (a b : RU α κ) :
    ruNameLe a b = true ∨ ruNameLe b a = true :=
  pyStrLe_total (strN a.nameOf) (strN b.nameOf)

theorem ruNameLe_trans (a b c : RU α κ) :
    ruNameLe a b = true → ruNameLe b c = true → ruNameLe a c = true :=
  pyStrLe_trans (strN a.nameOf) (strN b.nameOf) (strN c.nameOf)

theorem ruComparator_lt_iff (a b : RU α κ) :
    ((ruComparator (α := α) (κ := κ)).lt a b = true) ↔
      strN a.nameOf < strN b.nameOf := by
  simp only [ruComparator, GenericCompare.GenericComparator.lt,
    GenericCompare.GenericComparator.keyList, List.map_cons, List.map_nil]
  by_cases h : strN a.nameOf < strN b.nameOf
  · simp [GenericCompare.pyListLt, h]
  · by_cases h2 : strN b.nameOf < strN a.nameOf
    · simp [GenericCompare.pyListLt, h, h2]
    · simp [GenericCompare.pyListLt, h, h2]

theorem ruComparator_eq_iff (a b : RU α κ) :
    ((ruComparator (α := α) (κ := κ)).eq a b = true) ↔
      strN a.nameOf = strN b.nameOf := by
  simp [ruComparator, GenericCompare.GenericComparator.eq,
    GenericCompare.GenericComparator.keyList]

theorem childOfBucket_name_some (nf : Option (κ → Option κ))
    (strFn : κ → String) (k : κ) (v : List α) :
    ∃ s, (childOfBucket nf strFn k v).nameOf = some s := by
  cases nf <;> exact ⟨_, rfl⟩

theorem preChildren_names_some (f : α → Option κ)
    (nf : Option (κ → Option κ)) (strFn : κ → String) (d : List α) :
    ∀ c ∈ preChildren f nf strFn d, ∃ s, c.nameOf = some s := by
  intro c hc
  simp only [preChildren] at hc
  split at hc
  · obtain ⟨k, v, _, hck⟩ := nonNullChildren_mem hc
    rw [hck]
    exact childOfBucket_name_some nf strFn k v
  · rcases List.mem_append.mp hc with hc2 | hc2
    · obtain ⟨k, v, _, hck⟩ := nonNullChildren_mem hc2
      rw [hck]
      exact childOfBucket_name_some nf strFn k v
    · rw [List.mem_singleton.mp hc2]
      exact ⟨"Unknown", rfl⟩

/-- C5: after a grouping call the node's children are sorted ascending
under `RU_COMPARATOR` with field list `['name']` (each pair of adjacent
children satisfies `lt` or `eq` of the comparator, which is natural
string ordering of the names), for every input item order; and every
child's name is a string (the stringified key or `'Unknown'`). -/
theorem children_sorted_after_grouping (f : α → Option κ)
    (nf : Option (κ → Option κ)) (strFn : κ → String) (nm : Option String)
    (ky : Option κ) (d : List α) :
    ((groupByLeaf f nf strFn nm ky d).childrenOf.getD []).Pairwise
      (fun a b => (ruComparator (α := α) (κ := κ)).lt a b = true
        ∨ (ruComparator (α := α) (κ := κ)).eq a b = true)
    ∧ ∀ c ∈ (groupByLeaf f nf strFn nm ky d).childrenOf.getD [],
        ∃ s, c.nameOf = some s := by
  rw [groupByLeaf_childrenOf]
  simp only [Option.getD_some]
  constructor
  · have hp := pySort_pairwise ruNameLe ruNameLe_total ruNameLe_trans
      (preChildren f nf strFn d)
    refine hp.imp ?_
    intro a b h
    have hle := (ruNameLe_iff a b).mp h
    rcases lt_or_eq_of_le hle with hlt | heq
    · exact Or.inl ((ruComparator_lt_iff a b).mpr hlt)
    · exact Or.inr ((ruComparator_eq_iff a b).mpr heq)
  · intro c hc
    exact preChildren_names_some f nf strFn d c
      ((pySort_perm ruNameLe (preChildren f nf strFn d)).mem_iff.mp hc)

/-- C5, witness: grouping the single item `5` produces one child whose
name is the stringified key. -/
theorem children_sorted_after_grouping_witness :
    ∃ s, (RU.leaf (some "5") (some 5) [5] : RU Nat Nat).nameOf = some s :=
  (children_sorted_after_grouping (fun n : Nat => some n) none
      (fun _ => "5") (some "r") none [5]).2
    (RU.leaf (some "5") (some 5) [5])
    (show (RU.leaf (some "5") (some 5) [5] : RU Nat Nat) ∈
        [(RU.leaf (some "5") (some 5) [5] : RU Nat Nat)] from
      List.mem_singleton.mpr rfl)

end ClaimFive

end RollerUpper

namespace GenericCompare

section ClaimNine

variable {ο : Type} {ρ : Type}

theorem pyListLt_nil_nil [LinearOrder ρ] : pyListLt ([] : List ρ) [] = false := rfl

theorem pyListLt_cons_cons [LinearOrder ρ] (x y : ρ) (xs ys : List ρ) :
    pyListLt (x :: xs) (y :: ys) =
      if x < y then true else if y < x then false else pyListLt xs ys := by
  simp [pyListLt]

theorem pyListLt_trichotomy [LinearOrder ρ] : ∀ xs ys : List ρ,
    (pyListLt xs ys = true ∧ pyListLt ys xs = false ∧ xs ≠ ys)
    ∨ (pyListLt xs ys = false ∧ pyListLt ys xs = true ∧ xs ≠ ys)
    ∨ (pyListLt xs ys = false ∧ pyListLt ys xs = false ∧ xs = ys)
  | [], [] => .inr (.inr ⟨rfl, rfl, rfl⟩)
  | [], y :: ys => .inl ⟨rfl, rfl, by simp⟩
  | x :: xs, [] => .inr (.inl ⟨rfl, rfl, by simp⟩)
  | x :: xs, y :: ys => by
    rcases lt_trichotomy x y with h | h | h
    · refine .inl ⟨?_, ?_, ?_⟩
      · rw [pyListLt_cons_cons]
        simp [h]
      · rw [pyListLt_cons_cons]
        simp [lt_asymm h, h]
      · simp [LT.lt.ne h]
    · subst h
      have hni : ¬ x < x := lt_irrefl x
      rcases pyListLt_trichotomy xs ys with ⟨h1, h2, h3⟩ | ⟨h1, h2, h3⟩ |
        ⟨h1, h2, h3⟩
      · exact .inl ⟨by rw [pyListLt_cons_cons]; simp [hni, h1],
          by rw [pyListLt_cons_cons]; simp [hni, h2], by simp [h3]⟩
      · exact .inr (.inl ⟨by rw [pyListLt_cons_cons]; simp [hni, h1],
          by rw [pyListLt_cons_cons]; simp [hni, h2], by simp [h3]⟩)
      · exact .inr (.inr ⟨by rw [pyListLt_cons_cons]; simp [hni, h1],
          by rw [pyListLt_cons_cons]; simp [hni, h2], by simp [h3]⟩)
    · refine .inr (.inl ⟨?_, ?_, ?_⟩)
      · rw [pyListLt_cons_cons]
        simp [lt_asymm h, h]
      · rw [pyListLt_cons_cons]
        simp [h]
      · simp
        intro he
        exact absurd he.symm (LT.lt.ne h)

theorem pyListLt_trans [LinearOrder ρ] : ∀ xs ys zs : List ρ,
    pyListLt xs ys = true → pyListLt ys zs = true → pyListLt xs zs = true
  | [], [], _, h1, _ => by simp [pyListLt] at h1
  | [], _ :: _, [], _, h2 => by simp [pyListLt] at h2
  | [], _ :: _, _ :: _, _, _ => rfl
  | _ :: _, [], _, h1, _ => by simp [pyListLt] at h1
  | _ :: _, _ :: _, [], _, h2 => by simp [pyListLt] at h2
  | x :: xs, y :: ys, z :: zs, h1, h2 => by
    rw [pyListLt_cons_cons] at h1 h2 ⊢
    rcases lt_trichotomy x y with hxy | hxy | hxy <;>
      rcases lt_trichotomy y z with hyz | hyz | hyz
    · simp [lt_trans hxy hyz]
    · subst hyz
      simp [hxy]
    · simp [lt_asymm hyz, hyz] at h2
    · subst hxy
      simp [hyz]
    · subst hxy
      subst hyz
      have hni : ¬ x < x := lt_irrefl x
      simp only [hni, if_false] at h1 h2 ⊢
      exact pyListLt_trans xs ys zs h1 h2
    · simp [lt_asymm hyz, hyz] at h2
    · simp [lt_asymm hxy, hxy] at h1
    · simp [lt_asymm hxy, hxy] at h1
    · simp [lt_asymm hxy, hxy] at h1

theorem pyListLt_first_diff [LinearOrder ρ] :
    ∀ (pre : List ρ) (x y : ρ) (xs ys : List ρ), x ≠ y →
    (pyListLt (pre ++ x :: xs) (pre ++ y :: ys) = true ↔ x < y)
  | [], x, y, xs, ys, hne => by
    simp only [List.nil_append]
    rw [pyListLt_cons_cons]
    rcases lt_trichotomy x y with h | h | h
    · simp [h]
    · exact absurd h hne
    · simp [lt_asymm h, h]
  | p :: pre, x, y, xs, ys, hne => by
    simp only [List.cons_append]
    rw [pyListLt_cons_cons]
    have hni : ¬ p < p := lt_irrefl p
    simp only [hni, if_false]
    exact pyListLt_first_diff pre x y xs ys hne

/-- C9: for all objects comparable under a configured field list (all
field values in one linear order), exactly one of `lt`, `gt`, `eq`
holds; the comparison is lexicographic in configured field order — when
the two key sequences share a prefix and then differ, the first
differing field value decides `lt`; and `lt`, `gt` and `eq` are each
transitive. -/
theorem comparator_total_order [LinearOrder ρ] [DecidableEq ρ]
    (cmp : GenericComparator ο ρ) :
    (∀ a b : ο,
      (cmp.lt a b = true ∧ cmp.gt a b = false ∧ cmp.eq a b = false)
      ∨ (cmp.lt a b = false ∧ cmp.gt a b = true ∧ cmp.eq a b = false)
      ∨ (cmp.lt a b = false ∧ cmp.gt a b = false ∧ cmp.eq a b = true))
    ∧ (∀ (a b : ο) (pre : List ρ) (x y : ρ) (xs ys : List ρ),
        cmp.keyList a = pre ++ x :: xs → cmp.keyList b = pre ++ y :: ys →
        x ≠ y → (cmp.lt a b = true ↔ x < y))
    ∧ (∀ a b c : ο,
        cmp.lt a b = true → cmp.lt b c = true → cmp.lt a c = true)
    ∧ (∀ a b c : ο,
        cmp.gt a b = true → cmp.gt b c = true → cmp.gt a c = true)
    ∧ (∀ a b c : ο,
        cmp.eq a b = true → cmp.eq b c = true → cmp.eq a c = true) := by
  refine ⟨?_, ?_, ?_, ?_, ?_⟩
  · intro a b
    rcases pyListLt_trichotomy (cmp.keyList a) (cmp.keyList b) with
      ⟨h1, h2, h3⟩ | ⟨h1, h2, h3⟩ | ⟨h1, h2, h3⟩
    · exact .inl ⟨h1, h2, by simp [GenericComparator.eq, h3]⟩
    · exact .inr (.inl ⟨h1, h2, by simp [GenericComparator.eq, h3]⟩)
    · exact .inr (.inr ⟨h1, h2, by simp [GenericComparator.eq, h3]⟩)
  · intro a b pre x y xs ys hka hkb hne
    rw [GenericComparator.lt, hka, hkb]
    exact pyListLt_first_diff pre x y xs ys hne
  · intro a b c h1 h2
    exact pyListLt_trans _ _ _ h1 h2
  · intro a b c h1 h2
    exact pyListLt_trans _ _ _ h2 h1
  · intro a b c h1 h2
    simp only [GenericComparator.eq, decide_eq_true_eq] at h1 h2 ⊢
    exact h1.trans h2

/-- C9, witness: transitivity of `lt` for the one-field comparator over
naturals, applied at `1 < 2 < 3`. -/
theorem comparator_total_order_witness :
    (GenericComparator.mk [fun n : Nat => n]).lt 1 3 = true :=
  (comparator_total_order (GenericComparator.mk [fun n : Nat => n])).2.2.1
    1 2 3 (by decide) (by decide)

end ClaimNine

end GenericCompare

namespace RollerUpper

section ClaimSeven

variable {α : Type} {κ : Type} [DecidableEq κ]

theorem gcList_nil (nmq : Option String) (kyq : Option κ) (r fo : Bool) :
    gcList nmq kyq r fo ([] : List (RU α κ)) = [] := by
  simp [gcList]

theorem gcList_cons_leaf (nmq : Option String) (kyq : Option κ)
    (r fo : Bool) (nm2 : Option String) (ky2 : Option κ) (d2 : List α)
    (cs : List (RU α κ)) :
    gcList nmq kyq r fo (RU.leaf nm2 ky2 d2 :: cs) =
      if fo && !(gcHit nmq kyq (RU.leaf nm2 ky2 d2)).isEmpty
      then gcHit nmq kyq (RU.leaf nm2 ky2 d2)
      else gcHit nmq kyq (RU.leaf nm2 ky2 d2) ++ gcList nmq kyq r fo cs := by
  simp [gcList]
  rw [List.append_nil]

theorem gcList_cons_node (nmq : Option String) (kyq : Option κ)
    (r fo : Bool) (nm2 : Option String) (ky2 : Option κ) (d2 : List α)
    (gcs cs : List (RU α κ)) :
    gcList nmq kyq r fo (RU.node nm2 ky2 d2 gcs :: cs) =
      if fo && !(gcHit nmq kyq (RU.node nm2 ky2 d2 gcs) ++
          (if r then gcList nmq kyq r false gcs else [])).isEmpty
      then gcHit nmq kyq (RU.node nm2 ky2 d2 gcs) ++
          (if r then gcList nmq kyq r false gcs else [])
      else (gcHit nmq kyq (RU.node nm2 ky2 d2 gcs) ++
          (if r then gcList nmq kyq r false gcs else [])) ++
          gcList nmq kyq r fo cs := by
  simp [gcList]

theorem mem_gcList_cases {nmq : Option String} {kyq : Option κ}
    {r fo : Bool} {c0 : RU α κ} {cs : List (RU α κ)} {c : RU α κ}
    (hc : c ∈ gcList nmq kyq r fo (c0 :: cs)) :
    c ∈ gcHit nmq kyq c0
    ∨ (∃ gcs, c0.childrenOf = some gcs ∧ c ∈ gcList nmq kyq r false gcs)
    ∨ c ∈ gcList nmq kyq r fo cs := by
  cases c0 with
  | leaf nm2 ky2 d2 =>
      rw [gcList_cons_leaf] at hc
      split at hc
      · exact .inl hc
      · rcases List.mem_append.mp hc with h | h
        · exact .inl h
        · exact .inr (.inr h)
  | node nm2 ky2 d2 gcs =>
      rw [gcList_cons_node] at hc
      have hdeepsub : ∀ x : RU α κ,
          x ∈ (if r then gcList nmq kyq r false gcs else []) →
          x ∈ gcList nmq kyq r false gcs := by
        intro x hx
        split at hx
        · exact hx
        · exact absurd hx (List.not_mem_nil x)
      generalize hde : (if r then gcList nmq kyq r false gcs else []) = dp
        at hc
      rw [hde] at hdeepsub
      split at hc
      · rcases List.mem_append.mp hc with h | h
        · exact .inl h
        · exact .inr (.inl ⟨gcs, rfl, hdeepsub c h⟩)
      · rcases List.mem_append.mp hc with h | h
        · rcases List.mem_append.mp h with h2 | h2
          · exact .inl h2
          · exact .inr (.inl ⟨gcs, rfl, hdeepsub c h2⟩)
        · exact .inr (.inr h)

theorem mem_gcHit_name {nm : String} {kyq : Option κ} {c0 c : RU α κ}
    (h : c ∈ gcHit (some nm) kyq c0) : c = c0 ∧ strN c0.nameOf = nm := by
  simp only [gcHit] at h
  split at h
  · exact ⟨List.mem_singleton.mp h, by assumption⟩
  · exact absurd h (List.not_mem_nil c)

theorem mem_gcHit_key {k : κ} {c0 c : RU α κ}
    (h : c ∈ gcHit (none : Option String) (some k) c0) :
    c = c0 ∧ c0.keyOf = some k := by
  simp only [gcHit] at h
  split at h
  · exact ⟨List.mem_singleton.mp h, by assumption⟩
  · exact absurd h (List.not_mem_nil c)

theorem gcHit_name_key_irrel (nm : String) (k1 k2 : Option κ)
    (c0 : RU α κ) : gcHit (some nm) k1 c0 = gcHit (some nm) k2 c0 := rfl

theorem gcList_key_irrel (nm : String) (r : Bool) :
    ∀ cs : List (RU α κ), ∀ (fo : Bool) (k1 k2 : Option κ),
      gcList (some nm) k1 r fo cs = gcList (some nm) k2 r fo cs := by
  intro cs
  induction cs using ruListInduction with
  | hnil => intro fo k1 k2; rw [gcList_nil, gcList_nil]
  | hcons c0 cs0 hdeep htail =>
      intro fo k1 k2
      cases c0 with
      | leaf nm2 ky2 d2 =>
          rw [gcList_cons_leaf, gcList_cons_leaf, htail fo k1 k2,
            gcHit_name_key_irrel nm k1 k2]
      | node nm2 ky2 d2 gcs =>
          rw [gcList_cons_node, gcList_cons_node, htail fo k1 k2,
            gcHit_name_key_irrel nm k1 k2, hdeep gcs rfl false k1 k2]

theorem gcList_name_sound (nm : String) (kyq : Option κ) (r : Bool) :
    ∀ cs : List (RU α κ), ∀ fo : Bool,
      ∀ c ∈ gcList (some nm) kyq r fo cs, strN c.nameOf = nm := by
  intro cs
  induction cs using ruListInduction with
  | hnil =>
      intro fo c hc
      rw [gcList_nil] at hc
      exact absurd hc (List.not_mem_nil c)
  | hcons c0 cs0 hdeep htail =>
      intro fo c hc
      rcases mem_gcList_cases hc with h | ⟨gcs, hg, h⟩ | h
      · obtain ⟨rfl, hname⟩ := mem_gcHit_name h
        exact hname
      · exact hdeep gcs hg false c h
      · exact htail fo c h

theorem gcList_key_sound (k : κ) (r : Bool) :
    ∀ cs : List (RU α κ), ∀ fo : Bool,
      ∀ c ∈ gcList (none : Option String) (some k) r fo cs,
        c.keyOf = some k := by
  intro cs
  induction cs using ruListInduction with
  | hnil =>
      intro fo c hc
      rw [gcList_nil] at hc
      exact absurd hc (List.not_mem_nil c)
  | hcons c0 cs0 hdeep htail =>
      intro fo c hc
      rcases mem_gcList_cases hc with h | ⟨gcs, hg, h⟩ | h
      · obtain ⟨rfl, hkey⟩ := mem_gcHit_key h
        exact hkey
      · exact hdeep gcs hg false c h
      · exact htail fo c h

theorem get_children_node (nmq : Option String) (kyq : Option κ)
    (r fo : Bool) (nm2 : Option String) (ky2 : Option κ) (d2 : List α)
    (cs : List (RU α κ)) (hnot : (nmq.isNone && kyq.isNone) = false) :
    get_children (RU.node nm2 ky2 d2 cs) nmq kyq r fo =
      initRU nmq kyq none (some (gcList nmq kyq r fo cs)) := by
  unfold get_children
  rw [hnot]
  rfl

theorem initRU_wrap_children (nm : Option String) (ky : Option κ)
    (cs : List (RU α κ)) :
    initRU nm ky none (some cs) = .ok (.node nm ky (concatData cs) cs) := rfl

end ClaimSeven

end RollerUpper

namespace RollerUpper

section ClaimSevenMain

variable {α : Type} {κ : Type} [DecidableEq κ]

/-- C7 counterexample: `get_children` called with BOTH a name and a key
raises no ConfigurationError — it returns a result, matching by name and
ignoring the key (which only ends up as the wrapper's `key` attribute). -/
theorem find_with_both_criteria_no_error :
    get_children (RU.node (some "root") (none : Option Nat) [5]
        [RU.leaf (some "a") (some 5) [5]]) (some "a") (some 7) true false =
      .ok (RU.node (some "a") (some 7) [5]
        [RU.leaf (some "a") (some 5) [5]]) := by
  simp [get_children, gcList, gcHit, strN, RU.nameOf, RU.childrenOf,
    initRU, truthyList, concatData, RU.dataOf]

/-- C7 amended: `find` fails with a ConfigurationError only when called
with NEITHER name nor key; when both are supplied there is no error —
the name criterion takes precedence and the key is ignored for matching;
on an internal node a name (resp. a key-only) criterion yields a new
synthetic internal node wrapping the matches, each match satisfying
stringified-name equality (resp. exact key equality). -/
theorem find_criteria (t : RU α κ) (r fo : Bool) :
    (get_children t none (none : Option κ) r fo =
      .error "must specify name or key")
    ∧ (∀ cs, t.childrenOf = some cs →
        (∀ (nm : String) (kyq : Option κ),
          gcList (some nm) kyq r fo cs = gcList (some nm) none r fo cs
          ∧ get_children t (some nm) kyq r fo =
              .ok (.node (some nm) kyq
                (concatData (gcList (some nm) none r fo cs))
                (gcList (some nm) none r fo cs))
          ∧ ∀ c ∈ gcList (some nm) none r fo cs, strN c.nameOf = nm)
        ∧ (∀ k : κ,
          get_children t none (some k) r fo =
              .ok (.node none (some k)
                (concatData (gcList none (some k) r fo cs))
                (gcList none (some k) r fo cs))
          ∧ ∀ c ∈ gcList none (some k) r fo cs, c.keyOf = some k)) := by
  constructor
  · rfl
  · intro cs hcs
    cases t with
    | leaf nm2 ky2 d2 => exact absurd hcs (by simp [RU.childrenOf])
    | node nm2 ky2 d2 cs0 =>
        have hcs0 : cs0 = cs := by
          simpa [RU.childrenOf] using hcs
        subst hcs0
        constructor
        · intro nm kyq
          have hirr := gcList_key_irrel (α := α) nm r cs0 fo kyq none
          refine ⟨hirr, ?_, gcList_name_sound nm none r cs0 fo⟩
          rw [get_children_node (some nm) kyq r fo nm2 ky2 d2 cs0
            (by simp)]
          rw [hirr, initRU_wrap_children]
        · intro k
          refine ⟨?_, gcList_key_sound k r cs0 fo⟩
          rw [get_children_node none (some k) r fo nm2 ky2 d2 cs0
            (by simp)]
          rw [initRU_wrap_children]

/-- C7, witness: on an internal node with one child named `"a"`, the
name-criterion clause of the amended statement gives the synthetic
wrapper node, both-criteria call included. -/
theorem find_criteria_witness :
    get_children (RU.node (some "root") (none : Option Nat) [5]
        [RU.leaf (some "a") (some 5) [5]]) (some "a") (some 7) true true =
      .ok (RU.node (some "a") (some 7)
        (concatData (gcList (some "a") none true true
          [RU.leaf (some "a") (some 5) [5]]))
        (gcList (some "a") none true true
          [RU.leaf (some "a") (some 5) [5]])) :=
  (((find_criteria (RU.node (some "root") (none : Option Nat) [5]
      [RU.leaf (some "a") (some 5) [5]]) true true).2
    [RU.leaf (some "a") (some 5) [5]] rfl).1 "a" (some 7)).2.1

end ClaimSevenMain

end RollerUpper
